import Mathlib

/-!
Verification of the example functions in
`2.1a_Python_for_HPC/0_numba/0_basics.ipynb`: the trace computation
`go_fast` (and its uncompiled original `go_fast.py_func` and NumPy
variant `go_numpy`), the coordinate conversion `spherical_to_cartesian`,
and the sampler `random_directions`.

Matrices are embedded as lists of rows of real numbers; indexing a
NumPy array out of bounds raises, which is modelled by `Option`.
Python's `random.uniform(a, b)` computes `a + (b - a) * random()` where
`random()` draws the next unit value from the global generator; this is
modelled by an explicit stream `g : ℕ → ℝ` of unit draws together with a
cursor into the stream that the sampler threads and advances, mirroring
the mutable state of the `random` module.
-/

noncomputable section

/-- A 2-D array: a list of rows. -/
abbrev Mat := List (List ℝ)

/-- The NumPy element access `a[i, j]`: `none` models the out-of-bounds
`IndexError`. -/
def getEntry (a : Mat) (i j : ℕ) : Option ℝ :=
  (a.get? i).bind fun row => row.get? j

/-- The entry `a[i, j]` read with default `0` (total version, used only to
state values that `getEntry` is separately proved to return). -/
def entryD (a : Mat) (i j : ℕ) : ℝ :=
  (a.getD i []).getD j 0

/-- The input `a` is a square matrix of size `m`: `m` rows, each of
length `m`. -/
def isSquare (a : Mat) (m : ℕ) : Prop :=
  a.length = m ∧ ∀ row ∈ a, row.length = m

/-- The accumulation loop of `go_fast`:
`for i in range(a.shape[0]): trace += np.tanh(a[i, i])`,
run over the given index list with accumulator `acc`. -/
def traceLoop (a : Mat) : List ℕ → ℝ → Option ℝ
  | [], acc => some acc
  | i :: is, acc => (getEntry a i i).bind fun v => traceLoop a is (acc + Real.tanh v)

/-- `go_fast(a)`: `trace = 0.0`; `for i in range(a.shape[0]): trace +=
np.tanh(a[i, i])`; `return a + trace` (NumPy broadcasting adds the scalar
to every entry, producing a new array). -/
def go_fast (a : Mat) : Option Mat :=
  (traceLoop a (List.range a.length) 0).map fun trace =>
    a.map fun row => row.map fun v => v + trace

/-- `go_fast.py_func(a)`: the uncompiled original Python function, whose
body is the very same source text as `go_fast`. -/
def go_fast_py_func (a : Mat) : Option Mat :=
  (traceLoop a (List.range a.length) 0).map fun trace =>
    a.map fun row => row.map fun v => v + trace

/-- The collection loop of `np.diagonal(a)`: gather `a[i, i]` for the
given indices, failing if any access is out of bounds. -/
def diagLoop (a : Mat) : List ℕ → Option (List ℝ)
  | [] => some []
  | i :: is => (getEntry a i i).bind fun v => (diagLoop a is).map fun vs => v :: vs

/-- `np.diagonal(a)` for a 2-D array: the entries `a[i, i]` for
`i < min(n_rows, n_cols)`. -/
def np_diagonal (a : Mat) : Option (List ℝ) :=
  diagLoop a (List.range (min a.length ((a.get? 0).getD []).length))

/-- `go_numpy(a)`: `return a + np.tanh(np.diagonal(a)).sum()`. -/
def go_numpy (a : Mat) : Option Mat :=
  (np_diagonal a).map fun d =>
    a.map fun row => row.map fun v => v + (d.map Real.tanh).sum

/-- `spherical_to_cartesian(r, theta, phi)`: physics-convention
conversion returning the tuple `(x, y, z)`. -/
def spherical_to_cartesian (r theta phi : ℝ) : ℝ × ℝ × ℝ :=
  let sin_theta := Real.sin theta
  (r * sin_theta * Real.cos phi, r * sin_theta * Real.sin phi, r * Real.cos theta)

/-- Python's `random.uniform(a, b)` applied to the unit draw `t` it
obtains from the generator: `a + (b - a) * t`. -/
def uniform (a b t : ℝ) : ℝ :=
  a + (b - a) * t

/-- The loop body of `random_directions`, iterated `n` times: draw
`phi = random.uniform(0, 2*np.pi)` and
`theta = np.arccos(random.uniform(-1, 1))` (each `uniform` call consumes
one unit draw from the stream `g`, advancing the cursor `k`), convert via
`spherical_to_cartesian`, and assign the row `out[i] = x, y, z`.  Returns
the rows together with the final cursor of the generator. -/
def random_directions_loop (r : ℝ) (g : ℕ → ℝ) : ℕ → ℕ → List (List ℝ) × ℕ
  | 0, k => ([], k)
  | Nat.succ n, k =>
    let phi := uniform 0 (2 * Real.pi) (g k)
    let theta := Real.arccos (uniform (-1) 1 (g (k + 1)))
    let p := spherical_to_cartesian r theta phi
    let rest := random_directions_loop r g n (k + 2)
    ([p.1, p.2.1, p.2.2] :: rest.1, rest.2)

/-- `random_directions(n, r)` as a state transformer on the global
generator: from cursor `k` into the draw stream `g`, produce the `n`
rows and the generator cursor after the call. -/
def random_directions_st (n : ℕ) (r : ℝ) (g : ℕ → ℝ) (k : ℕ) : List (List ℝ) × ℕ :=
  random_directions_loop r g n k

/-- The rows returned by `random_directions(n, r)` when the generator
stream is `g` and the call starts at cursor `0`. -/
def random_directions (n : ℕ) (r : ℝ) (g : ℕ → ℝ) : List (List ℝ) :=
  (random_directions_st n r g 0).1

/-- The loop of `random_directions` with the call site
`spherical_to_cartesian(r, theta, phi)` abstracted into a parameter `f`:
used to express that the sampler's output depends on the conversion
function it invokes. -/
def random_directions_loop_with (f : ℝ → ℝ → ℝ → ℝ × ℝ × ℝ) (r : ℝ) (g : ℕ → ℝ) :
    ℕ → ℕ → List (List ℝ) × ℕ
  | 0, k => ([], k)
  | Nat.succ n, k =>
    let phi := uniform 0 (2 * Real.pi) (g k)
    let theta := Real.arccos (uniform (-1) 1 (g (k + 1)))
    let p := f r theta phi
    let rest := random_directions_loop_with f r g n (k + 2)
    ([p.1, p.2.1, p.2.2] :: rest.1, rest.2)

/-- The row produced by one iteration of `random_directions` whose first
unit draw sits at cursor `k`. -/
def rdRow (r : ℝ) (g : ℕ → ℝ) (k : ℕ) : List ℝ :=
  let phi := uniform 0 (2 * Real.pi) (g k)
  let theta := Real.arccos (uniform (-1) 1 (g (k + 1)))
  let p := spherical_to_cartesian r theta phi
  [p.1, p.2.1, p.2.2]

/-- A concrete draw stream for the global generator: the first two unit
draws (consumed by a first call of `random_directions(1, 1.0)`) are `0`,
all later draws are `1/2`. -/
def gDraws : ℕ → ℝ := fun k => if k < 2 then 0 else 1 / 2

/-! ### Helper lemmas -/

/-- Summing a function mapped over `List.range` is the `Finset.range` sum. -/
lemma list_range_map_sum (f : ℕ → ℝ) (n : ℕ) :
    ((List.range n).map f).sum = ∑ i in Finset.range n, f i := by
  induction n with
  | zero => simp
  | succ n ih => simp [List.range_succ, Finset.sum_range_succ, ih]

/-- On a square matrix, each diagonal access `a[i, i]` with `i < m`
succeeds and returns the defaulted entry. -/
lemma getEntry_sq {a : Mat} {m : ℕ} (h : isSquare a m) {i : ℕ} (hi : i < m) :
    getEntry a i i = some (entryD a i i) := by
  obtain ⟨hl, hr⟩ := h
  have hia : i < a.length := by omega
  have hrow : a.get ⟨i, hia⟩ ∈ a := a.get_mem i hia
  have hlen : (a.get ⟨i, hia⟩).length = m := hr _ hrow
  have h1 : a.get? i = some (a.get ⟨i, hia⟩) := List.get?_eq_get hia
  have hii : i < (a.get ⟨i, hia⟩).length := by omega
  have h2 : (a.get ⟨i, hia⟩).get? i = some ((a.get ⟨i, hia⟩).get ⟨i, hii⟩) :=
    List.get?_eq_get hii
  have h3 : a.getD i [] = a.get ⟨i, hia⟩ := by
    rw [List.getD_eq_get?, h1]
    rfl
  have h4 : (a.get ⟨i, hia⟩).getD i 0 = (a.get ⟨i, hia⟩).get ⟨i, hii⟩ := by
    rw [List.getD_eq_get?, h2]
    rfl
  simp only [getEntry, entryD, h1, h3, h4, Option.some_bind, h2]

/-- The trace loop over in-bounds indices of a square matrix returns the
accumulator plus the sum, in order, of `tanh` of the visited entries. -/
lemma traceLoop_sq {a : Mat} {m : ℕ} (h : isSquare a m) :
    ∀ (l : List ℕ), (∀ i ∈ l, i < m) → ∀ acc : ℝ,
      traceLoop a l acc =
        some (acc + (l.map fun i => Real.tanh (entryD a i i)).sum) := by
  intro l
  induction l with
  | nil => intro _ acc; simp [traceLoop]
  | cons i is ih =>
    intro hb acc
    have hi : i < m := hb i (by simp)
    have his : ∀ j ∈ is, j < m := fun j hj => hb j (by simp [hj])
    rw [traceLoop, getEntry_sq h hi]
    simp only [Option.some_bind]
    rw [ih his]
    simp [add_assoc]

/-- On a square matrix of size `m`, `go_fast` succeeds and adds the
scalar `∑ i < m, tanh (a[i, i])` to every entry. -/
lemma go_fast_sq {a : Mat} {m : ℕ} (h : isSquare a m) :
    go_fast a =
      some (a.map fun row => row.map fun v =>
        v + ∑ i in Finset.range m, Real.tanh (entryD a i i)) := by
  have hl := h.1
  have hb : ∀ i ∈ List.range a.length, i < m := by
    intro i hi
    rw [List.mem_range] at hi
    omega
  rw [go_fast, traceLoop_sq h _ hb 0]
  simp [h.1, list_range_map_sum]

/-- The diagonal-collection loop over in-bounds indices of a square
matrix returns the list of visited diagonal entries. -/
lemma diagLoop_sq {a : Mat} {m : ℕ} (h : isSquare a m) :
    ∀ (l : List ℕ), (∀ i ∈ l, i < m) →
      diagLoop a l = some (l.map fun i => entryD a i i) := by
  intro l
  induction l with
  | nil => simp [diagLoop]
  | cons i is ih =>
    intro hb
    have hi : i < m := hb i (by simp)
    have his : ∀ j ∈ is, j < m := fun j hj => hb j (by simp [hj])
    rw [diagLoop, getEntry_sq h hi]
    simp [ih his]

/-- For a square matrix of size `m`, the diagonal length bound
`min(n_rows, n_cols)` is `m`. -/
lemma np_diag_len {a : Mat} {m : ℕ} (h : isSquare a m) :
    min a.length ((a.get? 0).getD []).length = m := by
  obtain ⟨hl, hr⟩ := h
  rcases m with _ | m
  · have : a = [] := List.length_eq_zero.mp hl
    simp [this]
  · have h0 : 0 < a.length := by omega
    have h1 : a.get? 0 = some (a.get ⟨0, h0⟩) := List.get?_eq_get h0
    have h2 : (a.get ⟨0, h0⟩).length = m + 1 := hr _ (a.get_mem 0 h0)
    have h3 : (a.get? 0).getD [] = a.get ⟨0, h0⟩ := by
      rw [h1]
      rfl
    rw [hl, h3, h2, min_self]

/-- On a square matrix of size `m`, `np.diagonal` succeeds and returns
the `m` diagonal entries in order. -/
lemma np_diagonal_sq {a : Mat} {m : ℕ} (h : isSquare a m) :
    np_diagonal a = some ((List.range m).map fun i => entryD a i i) := by
  rw [np_diagonal, np_diag_len h]
  apply diagLoop_sq h
  intro i hi
  rw [List.mem_range] at hi
  omega

/-- On a square matrix of size `m`, `go_numpy` succeeds and adds the same
scalar `∑ i < m, tanh (a[i, i])` to every entry. -/
lemma go_numpy_sq {a : Mat} {m : ℕ} (h : isSquare a m) :
    go_numpy a =
      some (a.map fun row => row.map fun v =>
        v + ∑ i in Finset.range m, Real.tanh (entryD a i i)) := by
  rw [go_numpy, np_diagonal_sq h]
  simp [List.map_map, Function.comp_def, list_range_map_sum]

/-- Characterization of the sampler loop: starting at cursor `k` it
produces the rows drawn at cursors `k, k+2, …, k+2(n-1)` and leaves the
generator cursor at `k + 2n`. -/
lemma random_directions_loop_eq (r : ℝ) (g : ℕ → ℝ) :
    ∀ (n k : ℕ),
      random_directions_loop r g n k =
        ((List.range n).map fun i => rdRow r g (k + 2 * i), k + 2 * n) := by
  intro n
  induction n with
  | zero => intro k; simp [random_directions_loop]
  | succ n ih =>
    intro k
    rw [random_directions_loop, ih (k + 2), Prod.mk.injEq]
    refine ⟨?_, by omega⟩
    rw [List.range_succ_eq_map, List.map_cons, List.map_map]
    congr 1
    apply List.map_congr_left
    intro i _
    show rdRow r g (k + 2 + 2 * i) = rdRow r g (k + 2 * (i + 1))
    congr 1
    omega

/-- The point returned by `spherical_to_cartesian` lies on the sphere of
radius `r`: its squared norm is `r ^ 2`, for all angles. -/
lemma s2c_norm (r theta phi : ℝ) :
    (spherical_to_cartesian r theta phi).1 ^ 2 +
      (spherical_to_cartesian r theta phi).2.1 ^ 2 +
      (spherical_to_cartesian r theta phi).2.2 ^ 2 = r ^ 2 := by
  have h1 : Real.sin phi ^ 2 + Real.cos phi ^ 2 = 1 := Real.sin_sq_add_cos_sq phi
  have h2 : Real.sin theta ^ 2 + Real.cos theta ^ 2 = 1 := Real.sin_sq_add_cos_sq theta
  simp only [spherical_to_cartesian]
  linear_combination (r ^ 2 * Real.sin theta ^ 2) * h1 + r ^ 2 * h2

/-- The 1×1 zero matrix is square of size 1. -/
lemma isSquare_single : isSquare [[(0 : ℝ)]] 1 := by
  constructor
  · rfl
  · intro row hrow
    rw [List.mem_singleton] at hrow
    rw [hrow]
    rfl

/-- The row drawn at cursor `0` from `gDraws` with radius `1`: both unit
draws are `0`, so `phi = 0`, `theta = arccos (-1) = π`, giving
`(0, 0, -1)`. -/
lemma rdRow_gDraws_zero : rdRow 1 gDraws 0 = [0, 0, -1] := by
  have hphi : uniform 0 (2 * Real.pi) (gDraws 0) = 0 := by
    norm_num [uniform, gDraws]
  have htheta : Real.arccos (uniform (-1) 1 (gDraws 1)) = Real.pi := by
    have h : uniform (-1) 1 (gDraws 1) = -1 := by norm_num [uniform, gDraws]
    rw [h, Real.arccos_neg_one]
  simp only [rdRow, hphi, htheta, spherical_to_cartesian]
  norm_num [Real.sin_pi, Real.cos_pi]

/-- The row drawn at cursor `2` from `gDraws` with radius `1`: both unit
draws are `1/2`, so `phi = π`, `theta = arccos 0 = π/2`, giving
`(-1, 0, 0)`. -/
lemma rdRow_gDraws_two : rdRow 1 gDraws 2 = [-1, 0, 0] := by
  have hphi : uniform 0 (2 * Real.pi) (gDraws 2) = Real.pi := by
    rw [uniform]
    norm_num [gDraws]
    ring
  have htheta : Real.arccos (uniform (-1) 1 (gDraws 3)) = Real.pi / 2 := by
    have h : uniform (-1) 1 (gDraws 3) = 0 := by norm_num [uniform, gDraws]
    rw [h, Real.arccos_zero]
  simp only [rdRow, hphi, htheta, spherical_to_cartesian]
  norm_num [Real.sin_pi, Real.cos_pi, Real.sin_pi_div_two, Real.cos_pi_div_two]

/-! ### Claims -/

/-- C1: on identical square inputs the optimized routines and their
naive equivalents agree element for element: `go_numpy(x) = go_fast(x)`
and `go_fast(x) = go_fast.py_func(x)`. -/
theorem C1_equivalence (x : Mat) (m : ℕ) (h : isSquare x m) :
    go_numpy x = go_fast x ∧ go_fast x = go_fast_py_func x := by
  refine ⟨?_, rfl⟩
  rw [go_fast_sq h, go_numpy_sq h]

/-- C1 witness: the equivalence instantiated at the concrete square
matrix `[[0]]`. -/
theorem C1_equivalence_witness :
    isSquare [[(0 : ℝ)]] 1 ∧
      (go_numpy [[(0 : ℝ)]] = go_fast [[(0 : ℝ)]] ∧
        go_fast [[(0 : ℝ)]] = go_fast_py_func [[(0 : ℝ)]]) :=
  ⟨isSquare_single, C1_equivalence [[(0 : ℝ)]] 1 isSquare_single⟩

/-- C2: `go_fast` performs a trace computation: the loop accumulates
`tanh(a[i,i])` over the diagonal in index order starting from `0.0`, and
the result is `a` plus that scalar broadcast to every entry. -/
theorem C2_go_fast_trace (a : Mat) (m : ℕ) (h : isSquare a m) :
    traceLoop a (List.range a.length) 0 =
        some (((List.range m).map fun i => Real.tanh (entryD a i i)).sum) ∧
      go_fast a = some (a.map fun row => row.map fun v =>
        v + ∑ i in Finset.range m, Real.tanh (entryD a i i)) := by
  constructor
  · have hb : ∀ i ∈ List.range a.length, i < m := by
      intro i hi
      rw [List.mem_range] at hi
      have := h.1
      omega
    rw [traceLoop_sq h _ hb 0, h.1]
    simp
  · exact go_fast_sq h

/-- C2 witness: the trace characterization instantiated at the concrete
square matrix `[[0]]`. -/
theorem C2_go_fast_trace_witness :
    isSquare [[(0 : ℝ)]] 1 ∧
      (traceLoop [[(0 : ℝ)]] (List.range (List.length [[(0 : ℝ)]])) 0 =
          some (((List.range 1).map fun i =>
            Real.tanh (entryD [[(0 : ℝ)]] i i)).sum) ∧
        go_fast [[(0 : ℝ)]] = some ([[(0 : ℝ)]].map fun row => row.map fun v =>
          v + ∑ i in Finset.range 1, Real.tanh (entryD [[(0 : ℝ)]] i i))) :=
  ⟨isSquare_single, C2_go_fast_trace [[(0 : ℝ)]] 1 isSquare_single⟩

/-- C3 counterexample: two successive calls of `random_directions(1, 1.0)`
with identical inputs return different outputs, because the second call
reads the global generator from the cursor where the first call left it.
The claim that every example function returns equal outputs on equal
inputs is therefore false for `random_directions`. -/
theorem C3_counterexample :
    (random_directions_st 1 1 gDraws 0).1 ≠
      (random_directions_st 1 1 gDraws ((random_directions_st 1 1 gDraws 0).2)).1 := by
  have h1 : random_directions_st 1 1 gDraws 0 = ([[0, 0, -1]], 2) := by
    rw [random_directions_st, random_directions_loop_eq]
    simp [List.range_succ, rdRow_gDraws_zero]
  have h2 : (random_directions_st 1 1 gDraws 2).1 = [[-1, 0, 0]] := by
    rw [random_directions_st, random_directions_loop_eq]
    simp [List.range_succ, rdRow_gDraws_two]
  rw [h1]
  show ([([(0 : ℝ), 0, -1])] : List (List ℝ)) ≠ (random_directions_st 1 1 gDraws 2).1
  rw [h2]
  norm_num

/-- C3 (amended): `go_fast` and `spherical_to_cartesian` are pure and
return equal outputs on equal inputs; `random_directions` does so only
when, besides equal inputs `(n, r)`, the global generator supplies the
same draws from the same cursor. -/
theorem C3_amended (a b : Mat) (r th ph r2 th2 ph2 rr rr2 : ℝ)
    (n n2 : ℕ) (g g2 : ℕ → ℝ) (k k2 : ℕ)
    (hab : a = b) (hsph : (r, th, ph) = (r2, th2, ph2))
    (hrd : (n, rr, k) = (n2, rr2, k2)) (hg : g = g2) :
    go_fast a = go_fast b ∧
      spherical_to_cartesian r th ph = spherical_to_cartesian r2 th2 ph2 ∧
      random_directions_st n rr g k = random_directions_st n2 rr2 g2 k2 := by
  obtain ⟨rfl, rfl, rfl⟩ : r = r2 ∧ th = th2 ∧ ph = ph2 := by
    simpa [Prod.ext_iff] using hsph
  obtain ⟨rfl, rfl, rfl⟩ : n = n2 ∧ rr = rr2 ∧ k = k2 := by
    simpa [Prod.ext_iff] using hrd
  subst hab hg
  exact ⟨rfl, rfl, rfl⟩

/-- C3 witness: determinism instantiated at concrete equal inputs. -/
theorem C3_amended_witness :
    (([] : Mat) = ([] : Mat)) ∧
      (((1 : ℝ), (0 : ℝ), (0 : ℝ)) = ((1 : ℝ), (0 : ℝ), (0 : ℝ))) ∧
      (((1 : ℕ), (1 : ℝ), (0 : ℕ)) = ((1 : ℕ), (1 : ℝ), (0 : ℕ))) ∧
      ((fun _ : ℕ => (0 : ℝ)) = (fun _ : ℕ => (0 : ℝ))) ∧
      (go_fast ([] : Mat) = go_fast ([] : Mat) ∧
        spherical_to_cartesian 1 0 0 = spherical_to_cartesian 1 0 0 ∧
        random_directions_st 1 1 (fun _ : ℕ => (0 : ℝ)) 0 =
          random_directions_st 1 1 (fun _ : ℕ => (0 : ℝ)) 0) :=
  ⟨rfl, rfl, rfl, rfl,
    C3_amended ([] : Mat) ([] : Mat) 1 0 0 1 0 0 1 1 1 1
      (fun _ : ℕ => (0 : ℝ)) (fun _ : ℕ => (0 : ℝ)) 0 0 rfl rfl rfl rfl⟩

/-- C4: under the domain-validity preconditions no example function
errors: on a square matrix every diagonal access `a[i,i]` of `go_fast`
is in bounds and `go_fast` returns a value, and the argument
`random.uniform(-1, 1)` passes to `arccos` lies in `[-1, 1]` for every
unit draw `t ∈ [0, 1)`. -/
theorem C4_safety (a : Mat) (m : ℕ) (t : ℝ) (h : isSquare a m)
    (ht0 : 0 ≤ t) (ht1 : t < 1) :
    (∀ i, i < m → (getEntry a i i).isSome = true) ∧
      (go_fast a).isSome = true ∧
      -1 ≤ uniform (-1) 1 t ∧ uniform (-1) 1 t ≤ 1 := by
  refine ⟨?_, ?_, ?_, ?_⟩
  · intro i hi
    rw [getEntry_sq h hi]
    rfl
  · rw [go_fast_sq h]
    rfl
  · rw [uniform]
    nlinarith
  · rw [uniform]
    nlinarith

/-- C4 witness: safety instantiated at the square matrix `[[0]]` and the
unit draw `t = 0`. -/
theorem C4_safety_witness :
    isSquare [[(0 : ℝ)]] 1 ∧ (0 : ℝ) ≤ 0 ∧ (0 : ℝ) < 1 ∧
      ((∀ i, i < 1 → (getEntry [[(0 : ℝ)]] i i).isSome = true) ∧
        (go_fast [[(0 : ℝ)]]).isSome = true ∧
        -1 ≤ uniform (-1) 1 0 ∧ uniform (-1) 1 0 ≤ 1) :=
  ⟨isSquare_single, le_refl 0, by norm_num,
    C4_safety [[(0 : ℝ)]] 1 0 isSquare_single (le_refl 0) (by norm_num)⟩

/-- C5 counterexample: the claim that no state persists across calls is
false: a call of `random_directions(1, 1.0)` starting with the global
generator at cursor `0` leaves the generator at a different cursor. -/
theorem C5_counterexample :
    (random_directions_st 1 1 gDraws 0).2 ≠ 0 := by
  rw [random_directions_st, random_directions_loop_eq]
  norm_num

/-- C5 (amended): the input arguments are unchanged and nothing persists
across calls except the global generator state: a call of
`random_directions(n, r)` advances the generator cursor by exactly `2n`
draws. -/
theorem C5_amended (n : ℕ) (r : ℝ) (g : ℕ → ℝ) (k : ℕ) :
    (random_directions_st n r g k).2 = k + 2 * n := by
  rw [random_directions_st, random_directions_loop_eq]

/-- C6 counterexample: the output of `random_directions` depends on
`spherical_to_cartesian`: rerunning the same loop with the call site
replaced by a different conversion function changes the output, so the
claim that no example function invokes another, with no data flow
between them, is false. -/
theorem C6_counterexample :
    (random_directions_loop_with (fun _ _ _ => ((0 : ℝ), (0 : ℝ), (0 : ℝ)))
        1 gDraws 1 0).1 ≠
      (random_directions_st 1 1 gDraws 0).1 := by
  have h1 : (random_directions_st 1 1 gDraws 0).1 = [[0, 0, -1]] := by
    rw [random_directions_st, random_directions_loop_eq]
    simp [List.range_succ, rdRow_gDraws_zero]
  have h2 : (random_directions_loop_with (fun _ _ _ => ((0 : ℝ), (0 : ℝ), (0 : ℝ)))
      1 gDraws 1 0).1 = [[0, 0, 0]] := by
    show ([[(0 : ℝ), 0, 0]] : List (List ℝ)) = [[0, 0, 0]]
    rfl
  rw [h1, h2]
  norm_num

/-- C6 (amended): `random_directions` invokes `spherical_to_cartesian`
and its output flows through it: the sampler equals the generic sampling
loop instantiated with `spherical_to_cartesian` at the call site. -/
theorem C6_amended (n : ℕ) (r : ℝ) (g : ℕ → ℝ) (k : ℕ) :
    random_directions_st n r g k =
      random_directions_loop_with spherical_to_cartesian r g n k := by
  rw [random_directions_st]
  induction n generalizing k with
  | zero => rfl
  | succ n ih =>
    rw [random_directions_loop, random_directions_loop_with, ih]

/-- C7: every example function executes to completion: `go_fast` returns
a value on every square matrix, and the loop of `random_directions`
performs exactly `n` iterations, producing `n` rows, for every `n`. -/
theorem C7_termination (a : Mat) (m n : ℕ) (r : ℝ) (g : ℕ → ℝ) (k : ℕ)
    (h : isSquare a m) :
    (go_fast a).isSome = true ∧
      ((random_directions_st n r g k).1).length = n := by
  constructor
  · rw [go_fast_sq h]
    rfl
  · rw [random_directions_st, random_directions_loop_eq]
    simp

/-- C7 witness: termination instantiated at the square matrix `[[0]]`
and a sampler call with `n = 3`. -/
theorem C7_termination_witness :
    isSquare [[(0 : ℝ)]] 1 ∧
      ((go_fast [[(0 : ℝ)]]).isSome = true ∧
        ((random_directions_st 3 1 (fun _ : ℕ => (0 : ℝ)) 0).1).length = 3) :=
  ⟨isSquare_single,
    C7_termination [[(0 : ℝ)]] 1 3 1 (fun _ : ℕ => (0 : ℝ)) 0 isSquare_single⟩

/-- C8: `spherical_to_cartesian` implements the physics-convention
conversion, returning the tuple
`(r sin θ cos φ, r sin θ sin φ, r cos θ)`. -/
theorem C8_spherical (r theta phi : ℝ) :
    spherical_to_cartesian r theta phi =
      (r * Real.sin theta * Real.cos phi, r * Real.sin theta * Real.sin phi,
        r * Real.cos theta) := rfl

/-- C9: in exact real arithmetic, every row `(x, y, z)` produced by
`random_directions(n, r)` has squared norm `x² + y² + z² = r²`, whatever
values the random draws take. -/
theorem C9_norm (n : ℕ) (r : ℝ) (g : ℕ → ℝ) (row : List ℝ)
    (hrow : row ∈ random_directions n r g) :
    ∃ x y z : ℝ, row = [x, y, z] ∧ x ^ 2 + y ^ 2 + z ^ 2 = r ^ 2 := by
  rw [random_directions, random_directions_st, random_directions_loop_eq] at hrow
  simp only [List.mem_map, List.mem_range] at hrow
  obtain ⟨i, _, hi⟩ := hrow
  rw [← hi]
  exact ⟨_, _, _, rfl, s2c_norm r _ _⟩

/-- C9 witness: the sphere property instantiated at the first row of a
concrete call of `random_directions(1, 1.0)`. -/
theorem C9_norm_witness :
    rdRow 1 gDraws 0 ∈ random_directions 1 1 gDraws ∧
      ∃ x y z : ℝ, rdRow 1 gDraws 0 = [x, y, z] ∧
        x ^ 2 + y ^ 2 + z ^ 2 = (1 : ℝ) ^ 2 := by
  have hmem : rdRow 1 gDraws 0 ∈ random_directions 1 1 gDraws := by
    rw [random_directions, random_directions_st, random_directions_loop_eq]
    simp [List.range_succ]
  exact ⟨hmem, C9_norm 1 1 gDraws _ hmem⟩

/-- C10: `random_directions(n, r)` returns an array of shape `(n, 3)`
with every row assigned: `n` rows, each of length `3`, and for `n = 0`
the empty array, without error. -/
theorem C10_shape (n : ℕ) (r : ℝ) (g : ℕ → ℝ) :
    (random_directions n r g).length = n ∧
      ((random_directions n r g).all fun row => row.length == 3) = true ∧
      random_directions 0 r g = [] := by
  refine ⟨?_, ?_, rfl⟩
  · rw [random_directions, random_directions_st, random_directions_loop_eq]
    simp
  · rw [random_directions, random_directions_st, random_directions_loop_eq]
    simp [List.all_eq_true, rdRow]

end
